import Mathlib

/-!
# Verification of the hotak-ai ingestion-cache and citation-integrity core

Shallow embedding of the repository's logic in Lean 4, together with
theorems settling the specification's claims.

Two groups of definitions:

* Frontend helpers embedded directly from the TypeScript sources
  (`TemplateList` badge hashing, `App.handleSend`).
* The ingestion cache (normalizer, source registry, batch coordinator) and
  the citation layer (enumerator, validator/repairer), whose backend
  implementation is not part of the visible sources; these are modelled
  from the specification, as marked in each doc comment.
-/

/-! ## Frontend: badge hashing (TemplateList.tsx) -/

/-- JavaScript 32-bit signed truncation (the effect of `|0` and of `<<` on
the accumulator in `hashString`). -/
def toInt32 (x : Int) : Int := (x + 2 ^ 31) % 2 ^ 32 - 2 ^ 31

/-- UTF-16 code units of a character, as JavaScript's `charCodeAt`
enumerates them. -/
def utf16Units (c : Char) : List Nat :=
  let n := c.toNat
  if n < 0x10000 then [n]
  else [0xD800 + (n - 0x10000) / 0x400, 0xDC00 + (n - 0x10000) % 0x400]

/-- One loop iteration of `hashString`:
`hash = (hash << 5) - hash + value.charCodeAt(i); hash |= 0`. -/
def hashStep (hash : Int) (code : Nat) : Int :=
  toInt32 (toInt32 (hash * 32) - hash + code)

/-- `hashString` from `TemplateList.tsx`: fold `hashStep` over the UTF-16
code units starting from 0, then `Math.abs`. -/
def hashString (value : String) : Int :=
  |(value.data.map utf16Units).flatten.foldl hashStep 0|

/-- The badge color palette from `TemplateList.tsx` (6 entries). -/
def badgePalette : List String :=
  ["#4C9F9E", "#E88D67", "#7E9CD8", "#D16D8C", "#8FB996", "#D4A373"]

/-- `hashString(template.name) % badgePalette.length` from the render loop. -/
def badgeIndex (name : String) : Int :=
  hashString name % (badgePalette.length : Int)

/-! ## Frontend: chat state (App.tsx) -/

/-- Message roles from the `ChatMessage` type. -/
inductive Role where
  | user
  | assistant
  deriving DecidableEq, Repr

/-- `ChatMessage` from the frontend types. -/
structure ChatMessage where
  id : String
  role : Role
  content : String
  deriving DecidableEq, Repr

/-- `ChatThread` from the frontend types. -/
structure ChatThread where
  id : String
  title : String
  messages : List ChatMessage
  deriving DecidableEq, Repr

/-- ECMAScript whitespace (the WhiteSpace and LineTerminator productions
that `String.prototype.trim` strips): tab, LF, VT, FF, CR, space, NBSP,
the Unicode Zs spaces, the line and paragraph separators, and ZWNBSP. -/
def jsWhitespace (c : Char) : Bool :=
  decide (c.toNat ∈ ([0x9, 0xA, 0xB, 0xC, 0xD, 0x20, 0xA0, 0x1680,
      0x2028, 0x2029, 0x202F, 0x205F, 0x3000, 0xFEFF] : List Nat)
    ∨ (0x2000 ≤ c.toNat ∧ c.toNat ≤ 0x200A))

/-- JavaScript `String.prototype.trim`: remove leading and trailing
ECMAScript whitespace. -/
def jsTrim (s : String) : String :=
  ⟨((s.data.dropWhile jsWhitespace).reverse.dropWhile jsWhitespace).reverse⟩

/-- `handleSend` from `App.tsx`.  The JavaScript guard
`!inputValue.trim() || !activeChatId` returns early when the trimmed input
is empty or when `activeChatId` is `null` *or the empty string* (both are
falsy).  Otherwise each chat whose id equals `activeChatId` gets one user
message appended (`id = "m" + Date.now()`, modelled by the `now`
parameter); every other chat is returned unchanged. -/
def handleSend (inputValue : String) (activeChatId : Option String) (now : String)
    (chats : List ChatThread) : List ChatThread :=
  if jsTrim inputValue = "" ∨ activeChatId = none ∨ activeChatId = some "" then chats
  else
    chats.map fun chat =>
      if some chat.id = activeChatId then
        { chat with messages := chat.messages ++ [⟨"m" ++ now, Role.user, inputValue⟩] }
      else chat

/-! ## Citation layer (modelled from the spec)

The backend module (`citation_extractor.py` per the roadmap) is not among
the visible sources; the definitions below are modelled from the
specification, §3 and §4.4–4.5. -/

/-- Modelled from the spec: `RetrievedChunk` — one piece of retrieved
content for a single query (§3).  `rank` is the 0-based retrieval order
(lower = more relevant). -/
structure RetrievedChunk where
  content : String
  source_normalized_id : String
  locator : Option String
  rank : Nat
  deriving DecidableEq, Repr

/-- Distinct `source_normalized_id`s in order of first appearance while
iterating the chunk list (which is in ascending `rank` order). -/
def distinctSources (chunks : List RetrievedChunk) : List String :=
  chunks.foldl
    (fun seen c =>
      if c.source_normalized_id ∈ seen then seen else seen ++ [c.source_normalized_id])
    []

/-- Modelled from the spec: `enumerate` (§4.4) — on first occurrence of a
source assign it the next unused integer starting at 1; the result is the
ordered `CitationMap`. -/
def enumerate (chunks : List RetrievedChunk) : List (Nat × String) :=
  (distinctSources chunks).enum.map fun p => (p.1 + 1, p.2)

/-- A `CitationMap` as §3 describes it: an ordered mapping whose keys are
exactly `1..k`. -/
def CanonicalMap (map : List (Nat × String)) : Prop :=
  map.map Prod.fst = List.range' 1 map.length

/-- Numeric value of a run of ASCII digits. -/
def digitsVal (ds : List Char) : Nat :=
  ds.foldl (fun n c => 10 * n + (c.toNat - 48)) 0

/-- Modelled from the spec: the citation-marker grammar (§4.5 step 1) — an
integer enclosed in square brackets.  At a position starting with `[`,
recognize a nonempty maximal run of ASCII digits followed immediately by
`]`; return the value, the verbatim marker token, and the remainder.
Anything else is not a marker. -/
def markerSplit (l : List Char) : Option (Nat × List Char × List Char) :=
  match l with
  | [] => none
  | c :: rest =>
    if c = '[' then
      let ds := rest.takeWhile Char.isDigit
      match rest.drop ds.length with
      | [] => none
      | d :: rem =>
        if d = ']' ∧ ds ≠ [] then some (digitsVal ds, c :: (ds ++ [d]), rem) else none
    else none

/-- All marker values recognized by a left-to-right scan of the text.
`fuel` bounds the recursion depth; every step consumes at least one
character, so `fuel = l.length` gives the exact scan. -/
def scanAux : Nat → List Char → List Nat
  | 0, _ => []
  | _ + 1, [] => []
  | fuel + 1, c :: rest =>
    match markerSplit (c :: rest) with
    | some (n, _, rem) => n :: scanAux fuel rem
    | none => scanAux fuel rest

/-- Marker values recognized in a text, in scan order. -/
def scanMarkers (l : List Char) : List Nat := scanAux l.length l

/-- The cleaning scan (§4.5 steps 1–2): recognized markers whose value is
outside `1..k` are removed, everything else (valid markers and
non-marker text) is kept verbatim. -/
def cleanAux (k : Nat) : Nat → List Char → List Char
  | 0, l => l
  | _ + 1, [] => []
  | fuel + 1, c :: rest =>
    match markerSplit (c :: rest) with
    | some (n, tok, rem) =>
      if 1 ≤ n ∧ n ≤ k then tok ++ cleanAux k fuel rem else cleanAux k fuel rem
    | none => c :: cleanAux k fuel rest

/-- Body text after removing invalid markers. -/
def cleanBody (k : Nat) (l : List Char) : List Char := cleanAux k l.length l

/-- Marker values recognized by the scan and kept (valid range `1..k`). -/
def keptAux (k : Nat) : Nat → List Char → List Nat
  | 0, _ => []
  | _ + 1, [] => []
  | fuel + 1, c :: rest =>
    match markerSplit (c :: rest) with
    | some (n, _, rem) =>
      if 1 ≤ n ∧ n ≤ k then n :: keptAux k fuel rem else keptAux k fuel rem
    | none => keptAux k fuel rest

/-- Valid markers kept by the cleaning scan. -/
def keptMarkers (k : Nat) (l : List Char) : List Nat := keptAux k l.length l

/-- One segment of the scan's decomposition of a draft: either a
recognized citation marker (with its verbatim token text) or one
character of unrecognized text (plain prose or a malformed token). -/
inductive ScanSeg where
  | text (c : Char)
  | marker (n : Nat) (tok : List Char)
  deriving DecidableEq, Repr

/-- The scan's decomposition of a text into segments (same traversal as
the recognition and cleaning scans). -/
def segAux : Nat → List Char → List ScanSeg
  | 0, _ => []
  | _ + 1, [] => []
  | fuel + 1, c :: rest =>
    match markerSplit (c :: rest) with
    | some (n, tok, rem) => .marker n tok :: segAux fuel rem
    | none => .text c :: segAux fuel rest

/-- Segment decomposition of a text. -/
def scanSegments (l : List Char) : List ScanSeg := segAux l.length l

/-- The verbatim characters of a segment. -/
def segChars : ScanSeg → List Char
  | .text c => [c]
  | .marker _ tok => tok

/-- How the cleaning scan re-emits a segment: text always verbatim, a
recognized marker verbatim when its value is in `1..k` and dropped
otherwise. -/
def renderSeg (k : Nat) : ScanSeg → List Char
  | .text c => [c]
  | .marker n tok => if 1 ≤ n ∧ n ≤ k then tok else []

/-- Modelled from the spec: human-readable label for a source (§4.5 step
4) — the source id plus the optional locator of the first chunk of that
source. -/
def sourceLabel (chunks : List RetrievedChunk) (sid : String) : String :=
  match chunks.find? (fun c => c.source_normalized_id = sid) with
  | some c =>
    match c.locator with
    | some loc => sid ++ " (" ++ loc ++ ")"
    | none => sid
  | none => sid

/-- The verbatim text of the citation marker for index `n`. -/
def renderMarker (n : Nat) : List Char := '[' :: ((toString n).data ++ [']'])

/-- The validated answer (§3): cleaned/repaired body plus the rendered
source section, kept as structured data (one entry per `CitationMap`
entry, in index order). -/
structure ValidatedAnswer where
  body : String
  sources : List (Nat × String)
  deriving DecidableEq, Repr

/-- Modelled from the spec: `finalize` (§4.5).  Steps 1–2: remove
out-of-range markers.  Step 3: if zero valid markers remain and the map
is non-empty, append a citation for the most relevant source (the map's
first entry, index 1).  Step 4: render one source line per `CitationMap`
entry, in index order. -/
def finalize (draft : String) (map : List (Nat × String))
    (chunks : List RetrievedChunk) : ValidatedAnswer :=
  let k := map.length
  let cleaned := cleanBody k draft.data
  let body :=
    if keptMarkers k draft.data = [] ∧ map ≠ [] then
      cleaned ++ renderMarker (map.headD (0, "")).1
    else cleaned
  { body := ⟨body⟩
    sources := map.map fun e => (e.1, sourceLabel chunks e.2) }

/-- §4.5 step 5: the final answer text — body concatenated with the
rendered source section. -/
def ValidatedAnswer.text (v : ValidatedAnswer) : String :=
  v.body ++ v.sources.foldl
    (fun acc e => acc ++ "\n[" ++ toString e.1 ++ "] " ++ e.2) "\n\nSources:"

/-! ## Normalizer (modelled from the spec)

The backend module (`document_loader.py` path normalization per the
roadmap) is not among the visible sources; `normalize` is modelled from
the specification, §4.1. -/

/-- ASCII lower-casing of one character (the case folding §4.1 prescribes
for URL scheme and host). -/
def lowerCh (c : Char) : Char :=
  if 65 ≤ c.toNat ∧ c.toNat ≤ 90 then Char.ofNat (c.toNat + 32) else c

/-- Split a reference at the first `://`: returns the scheme (text before
it) and the remainder, or `none` when no `://` occurs (a file path). -/
def splitScheme : List Char → Option (List Char × List Char)
  | [] => none
  | c :: rest =>
    if c = ':' ∧ rest.take 2 = ['/', '/'] then some ([], rest.drop 2)
    else (splitScheme rest).map fun p => (c :: p.1, p.2)

/-- §4.1: strip a single trailing slash — remove the final `/` when it is
the only trailing slash (a degenerate `//` ending is left alone, keeping
the transformation idempotent on best-effort input). -/
def stripSingleTrailingSlash (l : List Char) : List Char :=
  if l.getLast? = some '/' ∧ l.dropLast.getLast? ≠ some '/' then l.dropLast else l

/-- §4.1: strip the default port of the (lower-cased) scheme — `:80` for
http, `:443` for https. -/
def defaultPortStrip (scheme port : List Char) : List Char :=
  if (scheme = "http".data ∧ port = ":80".data) ∨
      (scheme = "https".data ∧ port = ":443".data) then [] else port

/-- §4.1: strip the fragment — the text up to the first `#`. -/
def fragFree (rest : List Char) : List Char := rest.takeWhile (· != '#')

/-- The authority: text (after the scheme, fragment stripped) up to the
first `/` or `?`. -/
def authOf (rest : List Char) : List Char :=
  (fragFree rest).takeWhile (fun c => c != '/' && c != '?')

/-- Path plus query: everything from the first `/` or `?` on. -/
def pathQueryOf (rest : List Char) : List Char :=
  (fragFree rest).dropWhile (fun c => c != '/' && c != '?')

/-- The host: the authority up to the first `:`. -/
def hostOf (rest : List Char) : List Char := (authOf rest).takeWhile (· != ':')

/-- The port part: the authority from the first `:` on (including it). -/
def portOf (rest : List Char) : List Char := (authOf rest).dropWhile (· != ':')

/-- Canonical form of everything after `scheme://`: the host is
lower-cased, the default port and the fragment are stripped, the path and
query keep their case, and a single trailing slash is stripped. -/
def urlTail (scheme rest : List Char) : List Char :=
  (hostOf rest).map lowerCh ++ defaultPortStrip scheme (portOf rest)
    ++ stripSingleTrailingSlash (pathQueryOf rest)

/-- Modelled from the spec: `normalize` (§4.1) — pure, total and
deterministic.  URLs (references containing `://`) get a lower-cased
scheme and host, default port stripped, fragment stripped, a single
trailing slash stripped, and path/query case preserved.  References with
no `://` are file paths, kept in their (absolute, case-sensitive)
canonical form unchanged. -/
def normalizeChars (l : List Char) : List Char :=
  match splitScheme l with
  | none => l
  | some (scheme, rest) =>
    let ls := scheme.map lowerCh
    ls ++ ':' :: '/' :: '/' :: urlTail ls rest

namespace Loader

/-- String-level normalizer: `normalize(raw_ref) -> normalized_id`
(namespaced because Mathlib already has a root-level `normalize`). -/
def normalize (raw : String) : String := ⟨normalizeChars raw.data⟩

end Loader

/-! ## Source registry and ingestion coordinator (modelled from the spec)

The backend registry/coordinator is not among the visible sources (the
roadmap's `is_document_cached` and the frontend `DocumentLoadResponse`
types only declare the interface); the definitions below are modelled
from the specification, §3, §4.2–4.3 and §7. -/

/-- Modelled from the spec: `Source` (§3). -/
structure Source where
  normalized_id : String
  original_ref : String
  chunk_count : Nat
  first_ingested_at : Nat
  last_seen_at : Nat
  deriving DecidableEq, Repr

/-- Per-source error taxonomy (§7): parse and embed failures are
per-source and non-fatal to a batch. -/
inductive IngestError where
  | parseError (msg : String)
  | embedError (msg : String)
  deriving DecidableEq, Repr

/-- Registry state: the durable map of known source identities (§4.2). -/
structure RegistryState where
  sources : List Source
  deriving DecidableEq, Repr

/-- `lookup(normalized_id) -> Source | not-found` (§4.2). -/
def lookup (st : RegistryState) (nid : String) : Option Source :=
  st.sources.find? fun s => s.normalized_id == nid

/-- Outcome of one source inside a batch. -/
inductive LoadOutcome where
  | loaded (s : Source)
  | skipped (s : Source)
  | failed (raw : String) (e : IngestError)
  deriving DecidableEq, Repr

/-- `ingest_batch`'s response shape (§4.3): `loaded` (newly embedded),
`skipped` (already cached), `failed` (with per-source reason). -/
structure BatchResult where
  loaded : List Source
  skipped : List Source
  failed : List (String × IngestError)
  deriving DecidableEq, Repr

/-- Concatenation of two batch results. -/
def BatchResult.append (r1 r2 : BatchResult) : BatchResult :=
  ⟨r1.loaded ++ r2.loaded, r1.skipped ++ r2.skipped, r1.failed ++ r2.failed⟩

/-- Prepend one outcome to a batch result. -/
def mergeOutcome (out : LoadOutcome) (res : BatchResult) : BatchResult :=
  match out with
  | .loaded s => { res with loaded := s :: res.loaded }
  | .skipped s => { res with skipped := s :: res.skipped }
  | .failed r e => { res with failed := (r, e) :: res.failed }

/-- Modelled from the spec: one sequential ingestion round (§4.3) —
normalize, `acquire_or_join`; a cache hit refreshes `last_seen_at` and is
`skipped`; a miss makes the caller the winner, who invokes the external
`embed_and_store` pipeline (the `embed` parameter, §6) and then publishes
on success or fails (releasing the slot, failure not cached) on error.
The third component counts embed-pipeline invocations. -/
def ingestOne (embed : String → Except IngestError Nat) (now : Nat)
    (st : RegistryState) (raw : String) : RegistryState × LoadOutcome × Nat :=
  let nid := Loader.normalize raw
  match lookup st nid with
  | some s =>
    let s2 := { s with last_seen_at := now }
    (⟨st.sources.map fun t => if t.normalized_id == nid then s2 else t⟩, .skipped s2, 0)
  | none =>
    match embed nid with
    | .ok k => (⟨st.sources ++ [⟨nid, raw, k, now, now⟩]⟩, .loaded ⟨nid, raw, k, now, now⟩, 1)
    | .error e => (st, .failed raw e, 1)

/-- Modelled from the spec: `ingest_batch(raw_refs)` (§4.3), processing
the batch in order, threading the registry state, collecting per-source
outcomes and the total number of embed-pipeline invocations. -/
def ingest_batch (embed : String → Except IngestError Nat) (now : Nat)
    (st : RegistryState) : List String → RegistryState × BatchResult × Nat
  | [] => (st, ⟨[], [], []⟩, 0)
  | r :: rs =>
    let step1 := ingestOne embed now st r
    let rest := ingest_batch embed now step1.1 rs
    (rest.1, mergeOutcome step1.2.1 rest.2.1, step1.2.2 + rest.2.2)

/-! ## Single-flight concurrency model (modelled from the spec)

§4.2's `acquire_or_join`/`publish` protocol and §5's interleaving model
for N concurrent callers of the same normalized_id, as a transition
system: each step is one atomic action of one caller, and schedules are
arbitrary interleavings. -/

namespace SingleFlight

/-- Phase of one concurrent caller of `acquire_or_join` for a fixed
normalized_id. -/
inductive CallerPhase where
  | ready              -- has not called acquire_or_join yet
  | winner             -- received is_new = true, sole embedder
  | embedded (c : Nat) -- ran embed_and_store (chunk_count c), not yet published
  | waiting            -- received is_new = false, blocked on the wait handle
  | doneLoaded (c : Nat)
  | doneSkipped (c : Nat)
  deriving DecidableEq, Repr

/-- The registry slot for the normalized_id. -/
inductive SlotState where
  | free
  | inFlight
  | published (c : Nat)
  deriving DecidableEq, Repr

/-- Global state: caller phases, the slot, and the number of
embed-pipeline invocations so far. -/
structure SysState where
  callers : List CallerPhase
  slot : SlotState
  embeds : Nat
  deriving DecidableEq, Repr

/-- One atomic interleaving step; `c0` is the chunk count the external
embedder produces.  `acquire` succeeds only on a free slot (the caller
becomes the sole winner and the slot goes in-flight); `join` blocks a
later caller while in-flight; `embed` is the winner's single
embed-pipeline invocation; `publish` makes the result visible and
resolves the winner as loaded; `observe` (a call arriving after
publication) and `resume` (a waiter released by publication) resolve as
skipped with the published chunk count. -/
inductive Step (c0 : Nat) : SysState → SysState → Prop where
  | acquire (l1 l2 : List CallerPhase) (e : Nat) :
      Step c0 ⟨l1 ++ .ready :: l2, .free, e⟩ ⟨l1 ++ .winner :: l2, .inFlight, e⟩
  | join (l1 l2 : List CallerPhase) (e : Nat) :
      Step c0 ⟨l1 ++ .ready :: l2, .inFlight, e⟩ ⟨l1 ++ .waiting :: l2, .inFlight, e⟩
  | embed (l1 l2 : List CallerPhase) (e : Nat) :
      Step c0 ⟨l1 ++ .winner :: l2, .inFlight, e⟩
        ⟨l1 ++ .embedded c0 :: l2, .inFlight, e + 1⟩
  | publish (l1 l2 : List CallerPhase) (c e : Nat) :
      Step c0 ⟨l1 ++ .embedded c :: l2, .inFlight, e⟩
        ⟨l1 ++ .doneLoaded c :: l2, .published c, e⟩
  | observe (l1 l2 : List CallerPhase) (c e : Nat) :
      Step c0 ⟨l1 ++ .ready :: l2, .published c, e⟩
        ⟨l1 ++ .doneSkipped c :: l2, .published c, e⟩
  | resume (l1 l2 : List CallerPhase) (c e : Nat) :
      Step c0 ⟨l1 ++ .waiting :: l2, .published c, e⟩
        ⟨l1 ++ .doneSkipped c :: l2, .published c, e⟩

/-- Initial state: N callers about to call `acquire_or_join`, free slot,
no embed invocation yet. -/
def initState (N : Nat) : SysState := ⟨List.replicate N .ready, .free, 0⟩

/-- States reachable from `initState N` under arbitrary interleaving. -/
inductive Reachable (c0 N : Nat) : SysState → Prop where
  | init : Reachable c0 N (initState N)
  | step {s t : SysState} : Reachable c0 N s → Step c0 s t → Reachable c0 N t

/-- The winner-side phases (hold the slot). -/
def isActive : CallerPhase → Bool
  | .winner => true
  | .embedded _ => true
  | _ => false

/-- Has already run the embed pipeline, not yet published. -/
def isEmbedded : CallerPhase → Bool
  | .embedded _ => true
  | _ => false

/-- Resolved as loaded. -/
def isLoaded : CallerPhase → Bool
  | .doneLoaded _ => true
  | _ => false

/-- Resolved as skipped. -/
def isSkipped : CallerPhase → Bool
  | .doneSkipped _ => true
  | _ => false

/-- A caller whose `acquire_or_join` call has fully resolved. -/
def isDone : CallerPhase → Bool
  | .doneLoaded _ => true
  | .doneSkipped _ => true
  | _ => false

/-- The single-flight invariant.  Free slot: nothing has happened.
In-flight: exactly one winner-side caller, embed count equals the number
of embedded callers (hence ≤ 1), nobody resolved yet, and any embedded
result is the embedder's `c0`.  Published: the published count is `c0`,
the pipeline ran exactly once, exactly one caller loaded, and every
caller is pending or resolved with `c0`. -/
def Inv (c0 : Nat) (s : SysState) : Prop :=
  match s.slot with
  | .free => s.embeds = 0 ∧ ∀ p ∈ s.callers, p = .ready
  | .inFlight =>
      s.callers.countP isActive = 1 ∧
      s.embeds = s.callers.countP isEmbedded ∧
      (∀ p ∈ s.callers, p = .ready ∨ p = .waiting ∨ isActive p = true) ∧
      (∀ c : Nat, CallerPhase.embedded c ∈ s.callers → c = c0)
  | .published c =>
      c = c0 ∧ s.embeds = 1 ∧ s.callers.countP isLoaded = 1 ∧
      ∀ p ∈ s.callers, p = .ready ∨ p = .waiting ∨
        p = .doneLoaded c0 ∨ p = .doneSkipped c0

end SingleFlight

/-! ## Theorems for the frontend claims -/

/-- C9: for every input string, `hashString` returns a non-negative
integer, so the badge index `hashString(template.name) % badgePalette.length`
always lies in `0..5` and indexing `badgePalette` never goes out of
bounds. -/
theorem hashString_badgeIndex_in_bounds (s : String) :
    0 ≤ hashString s ∧ 0 ≤ badgeIndex s ∧ badgeIndex s < 6 ∧
      (badgeIndex s).toNat < badgePalette.length := by
  have h0 : 0 ≤ hashString s := abs_nonneg _
  have h6 : (badgePalette.length : Int) = 6 := by norm_num [badgePalette]
  have h1 : 0 ≤ badgeIndex s := by
    unfold badgeIndex
    exact Int.emod_nonneg _ (by norm_num [badgePalette])
  have h2 : badgeIndex s < 6 := by
    unfold badgeIndex
    rw [h6]
    exact Int.emod_lt_of_pos _ (by norm_num)
  refine ⟨h0, h1, h2, ?_⟩
  have : badgePalette.length = 6 := by norm_num [badgePalette]
  omega

/-- C10 counterexample: the claim says the chats state is unchanged only
when the input is blank or `activeChatId` is null, and that otherwise one
user message is appended to the active chat.  But `!activeChatId` in
JavaScript is also true for the empty string: with non-blank input
`"hi"`, `activeChatId = some ""` (not null) and a chat whose id is `""`,
`handleSend` leaves the chat list unchanged and appends nothing. -/
theorem handleSend_counterexample_C10 :
    jsTrim "hi" ≠ "" ∧ (some "" : Option String) ≠ none ∧
      handleSend "hi" (some "") "9" [⟨"", "T", []⟩] = [⟨"", "T", []⟩] := by
  refine ⟨by decide, by decide, ?_⟩
  rfl

/-- C10 (amended): `handleSend` leaves the chats state unchanged whenever
the input value is empty or whitespace-only, or `activeChatId` is null or
the empty string (both falsy in JavaScript); otherwise it appends exactly
one user-role message to each chat whose id equals the active id and
leaves every other chat unchanged. -/
theorem handleSend_frame_C10 (inputValue : String) (activeChatId : Option String)
    (now : String) (chats : List ChatThread) :
    ((jsTrim inputValue = "" ∨ activeChatId = none ∨ activeChatId = some "") →
      handleSend inputValue activeChatId now chats = chats) ∧
    (∀ cid, activeChatId = some cid → cid ≠ "" → jsTrim inputValue ≠ "" →
      List.Forall₂ (fun c c2 =>
          (c.id = cid →
            c2 = { c with
                    messages := c.messages ++ [⟨"m" ++ now, Role.user, inputValue⟩] }) ∧
          (c.id ≠ cid → c2 = c))
        chats (handleSend inputValue activeChatId now chats)) := by
  constructor
  · intro h
    unfold handleSend
    rw [if_pos h]
  · intro cid hcid hne hinp
    subst hcid
    have hcond : ¬(jsTrim inputValue = "" ∨ (some cid : Option String) = none ∨
        (some cid : Option String) = some "") := by
      push_neg
      refine ⟨hinp, by simp, ?_⟩
      simpa using hne
    unfold handleSend
    rw [if_neg hcond]
    induction chats with
    | nil => exact List.Forall₂.nil
    | cons c cs ih =>
      refine List.Forall₂.cons ?_ ih
      by_cases hc : c.id = cid
      · simp [hc]
      · simp [hc]

/-- C10 witness: instantiating the frame theorem on a concrete two-chat
state appends exactly one message to the active chat and leaves the other
untouched. -/
theorem handleSend_frame_C10_witness :
    List.Forall₂ (fun c c2 =>
        (c.id = "chat-1" →
          c2 = { c with messages := c.messages ++ [⟨"m42", Role.user, "hello"⟩] }) ∧
        (c.id ≠ "chat-1" → c2 = c))
      [⟨"chat-1", "T", []⟩, ⟨"chat-2", "U", []⟩]
      (handleSend "hello" (some "chat-1") "42"
        [⟨"chat-1", "T", []⟩, ⟨"chat-2", "U", []⟩]) :=
  (handleSend_frame_C10 "hello" (some "chat-1") "42"
      [⟨"chat-1", "T", []⟩, ⟨"chat-2", "U", []⟩]).2
    "chat-1" rfl (by decide) (by decide)

/-! ## Helper lemmas for the citation layer -/

/-- The kept markers are exactly the recognized markers whose value is in
range: the cleaning scan and the recognition scan walk the same path. -/
theorem keptAux_eq_filter (k : Nat) :
    ∀ (fuel : Nat) (l : List Char),
      keptAux k fuel l = (scanAux fuel l).filter (fun n => decide (1 ≤ n ∧ n ≤ k))
  | 0, _ => by simp [keptAux, scanAux]
  | _ + 1, [] => by simp [keptAux, scanAux]
  | fuel + 1, c :: rest => by
    rcases h : markerSplit (c :: rest) with _ | ⟨n, tok, rem⟩
    · simpa [keptAux, scanAux, h] using keptAux_eq_filter k fuel rest
    · by_cases hv : 1 ≤ n ∧ n ≤ k
      · simpa [keptAux, scanAux, h, hv] using keptAux_eq_filter k fuel rem
      · simpa [keptAux, scanAux, h, hv] using keptAux_eq_filter k fuel rem

/-- A recognized marker token plus its remainder reconstruct the input
verbatim, and the token is nonempty. -/
theorem markerSplit_append : ∀ {l : List Char} {n : Nat} {tok rem : List Char},
    markerSplit l = some (n, tok, rem) → l = tok ++ rem ∧ tok ≠ [] := by
  intro l n tok rem h
  cases l with
  | nil => cases h
  | cons c rest =>
    simp only [markerSplit] at h
    by_cases hc : c = '['
    · rw [if_pos hc] at h
      split at h
      · cases h
      · rename_i d rem2 heq
        by_cases hcond : d = ']' ∧ rest.takeWhile Char.isDigit ≠ []
        · rw [if_pos hcond] at h
          simp only [Option.some.injEq, Prod.mk.injEq] at h
          obtain ⟨-, htok, hrem⟩ := h
          subst htok
          subst hrem
          subst hc
          refine ⟨?_, by simp⟩
          obtain ⟨t, ht⟩ := List.takeWhile_prefix (l := rest) Char.isDigit
          have hdrop : rest.drop (rest.takeWhile Char.isDigit).length = t := by
            nth_rewrite 2 [← ht]
            exact List.drop_left _ _
          rw [hdrop] at heq
          rw [List.cons_append, List.append_assoc, List.singleton_append, ← heq, ht]
        · rw [if_neg hcond] at h
          cases h
    · rw [if_neg hc] at h
      cases h

/-- The scan decomposition is lossless: flattening the segments gives the
original text back. -/
theorem segAux_flatten : ∀ (fuel : Nat) (l : List Char), l.length ≤ fuel →
    ((segAux fuel l).map segChars).flatten = l
  | 0, [], _ => rfl
  | 0, _ :: _, h => absurd h (by simp)
  | _ + 1, [], _ => rfl
  | fuel + 1, c :: rest, h => by
    rcases hm : markerSplit (c :: rest) with _ | ⟨n, tok, rem⟩
    · simp only [segAux, hm, List.map_cons, List.flatten_cons, segChars]
      rw [segAux_flatten fuel rest (by simpa using h)]
      rfl
    · obtain ⟨happ, htok⟩ := markerSplit_append hm
      have hlen : rem.length ≤ fuel := by
        have hl := congrArg List.length happ
        have ht1 : 1 ≤ tok.length := by
          cases tok with
          | nil => exact absurd rfl htok
          | cons _ _ => simp
        simp only [List.length_cons, List.length_append] at hl
        simp only [List.length_cons] at h
        omega
      simp only [segAux, hm, List.map_cons, List.flatten_cons, segChars]
      rw [segAux_flatten fuel rem hlen]
      exact happ.symm

/-- The cleaning scan emits exactly the segment decomposition: text
characters verbatim, recognized markers verbatim when in range and
dropped otherwise. -/
theorem cleanAux_segments (k : Nat) : ∀ (fuel : Nat) (l : List Char), l.length ≤ fuel →
    cleanAux k fuel l = ((segAux fuel l).map (renderSeg k)).flatten
  | 0, [], _ => rfl
  | 0, _ :: _, h => absurd h (by simp)
  | _ + 1, [], _ => rfl
  | fuel + 1, c :: rest, h => by
    rcases hm : markerSplit (c :: rest) with _ | ⟨n, tok, rem⟩
    · simp only [cleanAux, segAux, hm, List.map_cons, List.flatten_cons, renderSeg]
      rw [cleanAux_segments k fuel rest (by simpa using h)]
      rfl
    · obtain ⟨happ, htok⟩ := markerSplit_append hm
      have hlen : rem.length ≤ fuel := by
        have hl := congrArg List.length happ
        have ht1 : 1 ≤ tok.length := by
          cases tok with
          | nil => exact absurd rfl htok
          | cons _ _ => simp
        simp only [List.length_cons, List.length_append] at hl
        simp only [List.length_cons] at h
        omega
      simp only [cleanAux, segAux, hm, List.map_cons, List.flatten_cons, renderSeg]
      rw [cleanAux_segments k fuel rem hlen]
      by_cases hv : 1 ≤ n ∧ n ≤ k
      · rw [if_pos hv, if_pos hv]
      · rw [if_neg hv, if_neg hv]
        rfl

/-- Membership in the key range of a canonical citation map. -/
theorem canonicalMap_mem {map : List (Nat × String)} (h : CanonicalMap map) (n : Nat) :
    n ∈ map.map Prod.fst ↔ 1 ≤ n ∧ n ≤ map.length := by
  rw [h, List.mem_range'_1]
  omega

/-- The fold building `distinctSources` never shrinks its accumulator, and
keeps its first element. -/
theorem distinctSources_foldl_head? :
    ∀ (l : List RetrievedChunk) (a : List String), a ≠ [] →
      (l.foldl
          (fun seen c =>
            if c.source_normalized_id ∈ seen then seen
            else seen ++ [c.source_normalized_id]) a).head? = a.head?
  | [], _, _ => rfl
  | c :: l, a, ha => by
    by_cases hc : c.source_normalized_id ∈ a
    · rw [List.foldl_cons, if_pos hc]
      exact distinctSources_foldl_head? l a ha
    · rw [List.foldl_cons, if_neg hc, distinctSources_foldl_head? l _ (by simp [ha]),
        List.head?_append]
      cases a with
      | nil => exact absurd rfl ha
      | cons x xs => rfl

/-- The first distinct source is the source of the first chunk. -/
theorem distinctSources_head (c0 : RetrievedChunk) (cs : List RetrievedChunk) :
    (distinctSources (c0 :: cs)).head? = some c0.source_normalized_id := by
  unfold distinctSources
  rw [List.foldl_cons]
  simpa using distinctSources_foldl_head? cs [c0.source_normalized_id] (by simp)

/-- `enumerate` produces a canonical map: its keys are exactly `1..k`. -/
theorem enumerate_canonical (chunks : List RetrievedChunk) :
    CanonicalMap (enumerate chunks) := by
  unfold CanonicalMap enumerate
  simp only [List.map_map, List.length_map, List.enum_length]
  rw [List.range'_eq_map_range, ← List.enum_map_fst (distinctSources chunks), List.map_map]
  congr 1
  funext p
  simp [Nat.add_comm]

/-! ## Theorems for the citation claims -/

/-- C5: `enumerate` is a pure function of the ordered chunk list: the
empty list yields the empty map; the example
`[{source:A,rank:0},{source:B,rank:1},{source:A,rank:2}]` yields
`{1:A, 2:B}` with A keeping index 1; and in general the keys are the
consecutive integers starting at 1 while the values are the distinct
sources in order of first occurrence. -/
theorem enumerate_spec_C5 :
    enumerate [] = [] ∧
    enumerate [⟨"c1", "A", none, 0⟩, ⟨"c2", "B", none, 1⟩, ⟨"c3", "A", none, 2⟩]
        = [(1, "A"), (2, "B")] ∧
    ∀ chunks : List RetrievedChunk,
      (enumerate chunks).map Prod.fst = List.range' 1 (distinctSources chunks).length ∧
      (enumerate chunks).map Prod.snd = distinctSources chunks := by
  refine ⟨by decide, by decide, fun chunks => ⟨?_, ?_⟩⟩
  · have h := enumerate_canonical chunks
    unfold CanonicalMap at h
    rw [h]
    congr 1
    simp [enumerate]
  · unfold enumerate
    rw [List.map_map]
    have : (Prod.snd ∘ fun p : Nat × String => (p.1 + 1, p.2)) = Prod.snd := by
      funext p; rfl
    rw [this, List.enum_map_snd]

/-- C2 counterexample: the claimed invariant — every `[n]` in the final
body has a matching rendered source entry, and vice versa — fails.  On
draft `"[1[9]2]"` with the canonical two-entry map, removing the invalid
marker `[9]` splices the surrounding text into the new marker `[12]`,
which has no source entry; and source entry 2 is rendered although `[2]`
does not occur in the body. -/
theorem finalize_counterexample_C2 :
    (12 ∈ scanMarkers (finalize "[1[9]2]" [(1, "A"), (2, "B")] []).body.data ∧
      12 ∉ ((finalize "[1[9]2]" [(1, "A"), (2, "B")] []).sources.map Prod.fst)) ∧
    (2 ∈ ((finalize "[1[9]2]" [(1, "A"), (2, "B")] []).sources.map Prod.fst) ∧
      2 ∉ scanMarkers (finalize "[1[9]2]" [(1, "A"), (2, "B")] []).body.data) := by
  decide

/-- C2 (amended): for every draft and canonical CitationMap, the cleaning
scan keeps exactly the recognized markers whose integer lies in `1..k`
(out-of-range markers are removed), every kept marker has a matching entry
in the rendered source section, and the rendered section lists exactly the
CitationMap's indices; the draft `"See [1] and [9]."` with a CitationMap
of size 1 produces a body containing `[1]` and not `[9]`.  (Removing an
invalid marker can splice adjacent text into a new marker-shaped token,
and the rendered section may list entries not cited in the body, so the
original two-way correspondence does not hold.) -/
theorem finalize_citation_consistency_C2 (draft : String) (map : List (Nat × String))
    (chunks : List RetrievedChunk) (hmap : CanonicalMap map) :
    keptMarkers map.length draft.data
        = (scanMarkers draft.data).filter (fun n => decide (1 ≤ n ∧ n ≤ map.length)) ∧
    (∀ n ∈ keptMarkers map.length draft.data,
        n ∈ (finalize draft map chunks).sources.map Prod.fst) ∧
    (finalize draft map chunks).sources.map Prod.fst = map.map Prod.fst ∧
    scanMarkers (finalize "See [1] and [9]." [(1, "A")] []).body.data = [1] := by
  have hkeys : (finalize draft map chunks).sources.map Prod.fst = map.map Prod.fst := by
    simp [finalize, List.map_map]
  refine ⟨keptAux_eq_filter map.length draft.data.length draft.data, ?_, hkeys, by decide⟩
  intro n hn
  rw [keptMarkers, keptAux_eq_filter] at hn
  have hv := List.of_mem_filter hn
  rw [hkeys, canonicalMap_mem hmap]
  simpa using hv

/-- C2 witness: instantiating the amended theorem on the spec's own
example (`"See [1] and [9]."`, canonical map of size 1). -/
theorem finalize_citation_consistency_C2_witness :
    CanonicalMap [(1, "A")] ∧
      1 ∈ (finalize "See [1] and [9]." [(1, "A")] []).sources.map Prod.fst :=
  ⟨by unfold CanonicalMap; decide,
    (finalize_citation_consistency_C2 "See [1] and [9]." [(1, "A")] []
        (by unfold CanonicalMap; decide)).2.1 1 (by decide)⟩

/-- C6: if after stripping invalid markers zero valid markers remain and
the CitationMap is non-empty, `finalize` appends to the end of the cleaned
body a citation marker for the map's first entry; and when the map is the
one enumerated from a non-empty chunk list, that first entry is index 1,
the source of the most relevant (rank-lowest, first) chunk. -/
theorem finalize_repair_C6 (draft : String) (map : List (Nat × String))
    (chunks : List RetrievedChunk)
    (h0 : keptMarkers map.length draft.data = []) (hne : map ≠ []) :
    (finalize draft map chunks).body.data
        = cleanBody map.length draft.data ++ renderMarker (map.headD (0, "")).1 ∧
    (map = enumerate chunks →
      ∀ c0 cs, chunks = c0 :: cs →
        map.headD (0, "") = (1, c0.source_normalized_id)) := by
  constructor
  · simp [finalize, h0, hne]
  · rintro hmap c0 cs rfl
    subst hmap
    have hhead := distinctSources_head c0 cs
    rcases hds : distinctSources (c0 :: cs) with _ | ⟨d, ds⟩
    · rw [hds] at hhead
      exact absurd hhead (by simp)
    · rw [hds] at hhead
      have hd : d = c0.source_normalized_id := by simpa using hhead
      unfold enumerate
      rw [hds, hd]
      rfl

/-- C6 witness: a draft with no citations plus a single-source retrieval
gets the marker `[1]` appended. -/
theorem finalize_repair_C6_witness :
    (finalize "No citations." (enumerate [⟨"c", "A", none, 0⟩])
          [⟨"c", "A", none, 0⟩]).body.data
        = cleanBody (enumerate [⟨"c", "A", none, 0⟩]).length "No citations.".data
            ++ renderMarker ((enumerate [⟨"c", "A", none, 0⟩]).headD (0, "")).1 :=
  (finalize_repair_C6 "No citations." (enumerate [⟨"c", "A", none, 0⟩])
      [⟨"c", "A", none, 0⟩] (by decide) (by decide)).1

/-- C8: `finalize` never raises for malformed marker syntax — it is a
total function (its cleaning pass is the structurally recursive
`cleanBody`, and the only other step appends a repair marker), and on
*every* input draft the scan decomposes the text losslessly into
recognized markers and verbatim text characters: tokens that do not
match the integer-in-square-brackets grammar are never recognized as
markers (they remain text segments, which flatten back to the draft
unchanged), and the cleaned body re-emits every text segment verbatim,
removing only recognized out-of-range markers.  In particular the draft
`"See [1] and [x"`, where a valid marker coexists with a malformed
token, passes through the cleaning scan entirely unchanged. -/
theorem finalize_malformed_passthrough_C8 (draft : String) (k : Nat) :
    ((scanSegments draft.data).map segChars).flatten = draft.data ∧
    cleanBody k draft.data = ((scanSegments draft.data).map (renderSeg k)).flatten ∧
    cleanBody 1 "See [1] and [x".data = "See [1] and [x".data :=
  ⟨segAux_flatten draft.data.length draft.data le_rfl,
   cleanAux_segments k draft.data.length draft.data le_rfl,
   by decide⟩

/-! ## Helper lemmas for the normalizer -/

/-- `Char.ofNat` below the surrogate range round-trips through `toNat`. -/
theorem char_toNat_ofNat_lt {n : Nat} (h : n < 0xd800) : (Char.ofNat n).toNat = n := by
  simp [Char.ofNat, Char.ofNatAux, Char.toNat, dif_pos (Or.inl h), UInt32.toNat,
    UInt32.ofNatCore, BitVec.toNat_ofNatLt]

/-- Characters with equal code points are equal. -/
theorem char_toNat_inj {c d : Char} (h : c.toNat = d.toNat) : c = d := by
  apply Char.ext
  unfold Char.toNat at h
  exact UInt32.toNat.inj h

/-- Code point of `lowerCh`. -/
theorem lowerCh_toNat (c : Char) :
    (lowerCh c).toNat = if 65 ≤ c.toNat ∧ c.toNat ≤ 90 then c.toNat + 32 else c.toNat := by
  unfold lowerCh
  split
  · exact char_toNat_ofNat_lt (by omega)
  · rfl

/-- Lower-casing is idempotent. -/
theorem lowerCh_idem (c : Char) : lowerCh (lowerCh c) = lowerCh c := by
  apply char_toNat_inj
  have h1 := lowerCh_toNat c
  by_cases h : 65 ≤ c.toNat ∧ c.toNat ≤ 90
  · rw [if_pos h] at h1
    rw [lowerCh_toNat (lowerCh c), h1, if_neg (by omega)]
  · rw [if_neg h] at h1
    rw [lowerCh_toNat (lowerCh c), h1, if_neg h]

/-- Lower-casing a whole list twice is the same as once. -/
theorem map_lowerCh_idem (l : List Char) :
    (l.map lowerCh).map lowerCh = l.map lowerCh := by
  rw [List.map_map]
  exact List.map_congr_left fun c _ => lowerCh_idem c

/-- `lowerCh` hits a character below code point 65 only from that same
character. -/
theorem lowerCh_eq_low {c x : Char} (hx : x.toNat < 65) : lowerCh c = x ↔ c = x := by
  constructor
  · intro h
    have h2 := congrArg Char.toNat h
    rw [lowerCh_toNat] at h2
    split at h2
    · omega
    · exact char_toNat_inj h2
  · rintro rfl
    unfold lowerCh
    rw [if_neg (by omega)]

/-- A successful scheme split decomposes the input as
`scheme ++ "://" ++ rest`. -/
theorem splitScheme_eq_append :
    ∀ {l a b : List Char}, splitScheme l = some (a, b) → l = a ++ ':' :: '/' :: '/' :: b
  | [], _, _, h => by cases h
  | c :: rest, a, b, h => by
    unfold splitScheme at h
    by_cases hc : c = ':' ∧ rest.take 2 = ['/', '/']
    · rw [if_pos hc] at h
      simp only [Option.some.injEq, Prod.mk.injEq] at h
      obtain ⟨ha, hb⟩ := h
      subst ha
      subst hb
      obtain ⟨hc1, hc2⟩ := hc
      subst hc1
      have h3 := List.take_append_drop 2 rest
      rw [hc2] at h3
      simpa using h3.symm
    · rw [if_neg hc] at h
      cases hr : splitScheme rest with
      | none => rw [hr] at h; cases h
      | some p =>
        rw [hr] at h
        obtain ⟨p1, p2⟩ := p
        simp only [Option.map_some', Option.some.injEq, Prod.mk.injEq] at h
        obtain ⟨ha, hb⟩ := h
        subst ha
        subst hb
        have h4 := splitScheme_eq_append hr
        subst h4
        simp

/-- The scheme part of a successful split contains no `://` itself. -/
theorem splitScheme_some_none :
    ∀ {l a b : List Char}, splitScheme l = some (a, b) → splitScheme a = none
  | [], _, _, h => by cases h
  | c :: rest, a, b, h => by
    unfold splitScheme at h
    by_cases hc : c = ':' ∧ rest.take 2 = ['/', '/']
    · rw [if_pos hc] at h
      simp only [Option.some.injEq, Prod.mk.injEq] at h
      obtain ⟨ha, hb⟩ := h
      subst ha
      rfl
    · rw [if_neg hc] at h
      cases hr : splitScheme rest with
      | none => rw [hr] at h; cases h
      | some p =>
        rw [hr] at h
        obtain ⟨p1, p2⟩ := p
        simp only [Option.map_some', Option.some.injEq, Prod.mk.injEq] at h
        obtain ⟨ha, hb⟩ := h
        subst ha
        have hrest := splitScheme_eq_append hr
        have hp1 := splitScheme_some_none hr
        unfold splitScheme
        rw [if_neg ?_, hp1]
        · rfl
        · rintro ⟨rfl, htake⟩
          apply hc
          refine ⟨rfl, ?_⟩
          subst hrest
          match p1, htake with
          | [], htake => simp at htake
          | [d], htake => simp at htake
          | d :: e :: p1q, htake => simpa using htake

/-- Appending `://` after a separator-free prefix splits exactly there. -/
theorem splitScheme_none_append {b : List Char} :
    ∀ {a : List Char}, splitScheme a = none →
      splitScheme (a ++ ':' :: '/' :: '/' :: b) = some (a, b)
  | [], _ => by simp [splitScheme]
  | c :: a2, h => by
    unfold splitScheme at h
    by_cases hc : c = ':' ∧ a2.take 2 = ['/', '/']
    · rw [if_pos hc] at h
      cases h
    · rw [if_neg hc] at h
      have ha2 : splitScheme a2 = none := by
        cases hr : splitScheme a2 with
        | none => rfl
        | some p => rw [hr] at h; cases h
      show splitScheme (c :: (a2 ++ ':' :: '/' :: '/' :: b)) = _
      unfold splitScheme
      rw [if_neg ?_, splitScheme_none_append ha2]
      · rfl
      · rintro ⟨rfl, htake⟩
        apply hc
        refine ⟨rfl, ?_⟩
        match a2, htake with
        | [], htake => simp at htake
        | [d], htake => simp at htake
        | d :: e :: a3, htake => simpa using htake

/-- Lower-casing cannot create a `://` separator. -/
theorem splitScheme_map_lower :
    ∀ {a : List Char}, splitScheme a = none → splitScheme (a.map lowerCh) = none
  | [], _ => rfl
  | c :: a2, h => by
    unfold splitScheme at h
    by_cases hc : c = ':' ∧ a2.take 2 = ['/', '/']
    · rw [if_pos hc] at h
      cases h
    · rw [if_neg hc] at h
      have ha2 : splitScheme a2 = none := by
        cases hr : splitScheme a2 with
        | none => rfl
        | some p => rw [hr] at h; cases h
      show splitScheme (lowerCh c :: a2.map lowerCh) = none
      unfold splitScheme
      rw [if_neg ?_, splitScheme_map_lower ha2]
      · rfl
      · rintro ⟨hcolon, htake⟩
        apply hc
        have hc2 : c = ':' := (lowerCh_eq_low (by decide)).mp hcolon
        refine ⟨hc2, ?_⟩
        match a2, htake with
        | [], htake => simp at htake
        | [d], htake => simp at htake
        | d :: e :: a3, htake =>
          have h1 : lowerCh d = '/' ∧ lowerCh e = '/' := by simpa using htake
          have hd : d = '/' := (lowerCh_eq_low (by decide)).mp h1.1
          have he : e = '/' := (lowerCh_eq_low (by decide)).mp h1.2
          simp [hd, he]

/-- Splitting a concatenation at the first predicate failure, when the
left part satisfies the predicate throughout and the right part starts
with a failure (or is empty). -/
theorem takeWhile_dropWhile_append {p : Char → Bool} :
    ∀ (a b : List Char), (∀ c ∈ a, p c = true) →
      (∀ d, b.head? = some d → p d = false) →
      (a ++ b).takeWhile p = a ∧ (a ++ b).dropWhile p = b
  | [], b, _, hb => by
    cases b with
    | nil => exact ⟨rfl, rfl⟩
    | cons d bs =>
      have hd : p d = false := hb d rfl
      simp [List.takeWhile_cons, List.dropWhile_cons, hd]
  | x :: a2, b, ha, hb => by
    have hx : p x = true := ha x (List.mem_cons_self x a2)
    have ih := takeWhile_dropWhile_append a2 b (fun c hc => ha c (List.mem_cons_of_mem x hc)) hb
    simp [List.takeWhile_cons, List.dropWhile_cons, hx, ih.1, ih.2]

/-- The head of a `dropWhile` fails the predicate. -/
theorem dropWhile_head?_false {p : Char → Bool} (l : List Char) (d : Char)
    (h : (l.dropWhile p).head? = some d) : p d = false := by
  have h2 := List.head?_dropWhile_not p l
  rw [h] at h2
  exact h2

/-- After stripping, the trailing-slash condition no longer holds. -/
theorem strip_slash_not_strippable (l : List Char) :
    ¬((stripSingleTrailingSlash l).getLast? = some '/' ∧
      (stripSingleTrailingSlash l).dropLast.getLast? ≠ some '/') := by
  unfold stripSingleTrailingSlash
  split
  · rename_i h
    rintro ⟨h1, _⟩
    exact h.2 h1
  · rename_i h
    exact h

/-- Stripping a single trailing slash is idempotent. -/
theorem strip_slash_idem (l : List Char) :
    stripSingleTrailingSlash (stripSingleTrailingSlash l) = stripSingleTrailingSlash l := by
  have h := strip_slash_not_strippable l
  generalize hm : stripSingleTrailingSlash l = m at h ⊢
  unfold stripSingleTrailingSlash
  rw [if_neg h]

/-- Stripping a trailing slash preserves the head (or empties the list). -/
theorem strip_slash_head? (l : List Char) :
    stripSingleTrailingSlash l = [] ∨ (stripSingleTrailingSlash l).head? = l.head? := by
  unfold stripSingleTrailingSlash
  split
  · cases l with
    | nil => exact Or.inl rfl
    | cons x xs =>
      cases xs with
      | nil => exact Or.inl rfl
      | cons y ys =>
        right
        simp [List.dropLast]
  · exact Or.inr rfl

/-- The stripped list is contained in the original. -/
theorem strip_slash_subset {c : Char} {l : List Char}
    (h : c ∈ stripSingleTrailingSlash l) : c ∈ l := by
  unfold stripSingleTrailingSlash at h
  split at h
  · exact (List.dropLast_sublist l).subset h
  · exact h

/-- After default-port stripping, the default-port condition no longer
holds. -/
theorem defaultPortStrip_not_default (s p : List Char) :
    ¬((s = "http".data ∧ defaultPortStrip s p = ":80".data) ∨
      (s = "https".data ∧ defaultPortStrip s p = ":443".data)) := by
  unfold defaultPortStrip
  split
  · rintro (⟨_, h⟩ | ⟨_, h⟩) <;> simp [String.data] at h
  · rename_i h
    exact h

/-- Default-port stripping is idempotent. -/
theorem defaultPortStrip_idem (s p : List Char) :
    defaultPortStrip s (defaultPortStrip s p) = defaultPortStrip s p := by
  have h := defaultPortStrip_not_default s p
  generalize hm : defaultPortStrip s p = m at h ⊢
  unfold defaultPortStrip
  rw [if_neg h]

/-- Default-port stripping returns the port or nothing. -/
theorem defaultPortStrip_cases (s p : List Char) :
    defaultPortStrip s p = [] ∨ defaultPortStrip s p = p := by
  unfold defaultPortStrip
  split
  · exact Or.inl rfl
  · exact Or.inr rfl

/-- Characters of the host satisfy all the separator exclusions. -/
theorem mem_hostOf {c : Char} {rest : List Char} (h : c ∈ hostOf rest) :
    c ≠ ':' ∧ c ≠ '/' ∧ c ≠ '?' ∧ c ≠ '#' := by
  unfold hostOf at h
  have h1 := List.mem_takeWhile_imp h
  have h2 : c ∈ authOf rest := (List.takeWhile_sublist _).subset h
  unfold authOf at h2
  have h3 := List.mem_takeWhile_imp h2
  have h4 : c ∈ fragFree rest := (List.takeWhile_sublist _).subset h2
  unfold fragFree at h4
  have h5 := List.mem_takeWhile_imp h4
  simp only [bne_iff_ne, ne_eq, Bool.and_eq_true] at h1 h3 h5
  exact ⟨h1, h3.1, h3.2, h5⟩

/-- Characters of the port part avoid `/`, `?` and `#`. -/
theorem mem_portOf {c : Char} {rest : List Char} (h : c ∈ portOf rest) :
    c ≠ '/' ∧ c ≠ '?' ∧ c ≠ '#' := by
  unfold portOf at h
  have h2 : c ∈ authOf rest := (List.dropWhile_sublist _).subset h
  unfold authOf at h2
  have h3 := List.mem_takeWhile_imp h2
  have h4 : c ∈ fragFree rest := (List.takeWhile_sublist _).subset h2
  unfold fragFree at h4
  have h5 := List.mem_takeWhile_imp h4
  simp only [bne_iff_ne, ne_eq, Bool.and_eq_true] at h3 h5
  exact ⟨h3.1, h3.2, h5⟩

/-- Characters of the path-and-query part avoid `#`. -/
theorem mem_pathQueryOf {c : Char} {rest : List Char} (h : c ∈ pathQueryOf rest) :
    c ≠ '#' := by
  unfold pathQueryOf at h
  have h4 : c ∈ fragFree rest := (List.dropWhile_sublist _).subset h
  unfold fragFree at h4
  have h5 := List.mem_takeWhile_imp h4
  simpa [bne_iff_ne] using h5

/-- A tail already in canonical shape is a fixed point of `urlTail`. -/
theorem urlTail_fixed (s LH PP SPQ : List Char)
    (hLH1 : ∀ c ∈ LH, c ≠ ':' ∧ c ≠ '/' ∧ c ≠ '?' ∧ c ≠ '#')
    (hPP1 : ∀ c ∈ PP, c ≠ '/' ∧ c ≠ '?' ∧ c ≠ '#')
    (hPPh : ∀ d, PP.head? = some d → d = ':')
    (hSPQ1 : ∀ c ∈ SPQ, c ≠ '#')
    (hSPQh : ∀ d, SPQ.head? = some d → d = '/' ∨ d = '?')
    (hLH2 : LH.map lowerCh = LH)
    (hPP2 : defaultPortStrip s PP = PP)
    (hSPQ2 : stripSingleTrailingSlash SPQ = SPQ) :
    urlTail s (LH ++ PP ++ SPQ) = LH ++ PP ++ SPQ := by
  have hfrag : fragFree (LH ++ PP ++ SPQ) = LH ++ PP ++ SPQ := by
    rw [fragFree, List.takeWhile_eq_self_iff]
    intro c hc
    simp only [List.mem_append] at hc
    rcases hc with (hc | hc) | hc
    · simpa [bne_iff_ne] using (hLH1 c hc).2.2.2
    · simpa [bne_iff_ne] using (hPP1 c hc).2.2
    · simpa [bne_iff_ne] using hSPQ1 c hc
  have hsplit1 := takeWhile_dropWhile_append (p := fun c => c != '/' && c != '?')
    (LH ++ PP) SPQ
    (by
      intro c hc
      rcases List.mem_append.mp hc with hc | hc
      · have := hLH1 c hc
        simp [bne_iff_ne, this.2.1, this.2.2.1]
      · have := hPP1 c hc
        simp [bne_iff_ne, this.1, this.2.1])
    (by
      intro d hd
      rcases hSPQh d hd with rfl | rfl <;> simp)
  have hsplit2 := takeWhile_dropWhile_append (p := (· != ':')) LH PP
    (by
      intro c hc
      simpa [bne_iff_ne] using (hLH1 c hc).1)
    (by
      intro d hd
      rw [hPPh d hd]
      simp)
  have hauth : authOf (LH ++ PP ++ SPQ) = LH ++ PP := by
    rw [authOf, hfrag]
    exact hsplit1.1
  have hpq : pathQueryOf (LH ++ PP ++ SPQ) = SPQ := by
    rw [pathQueryOf, hfrag]
    exact hsplit1.2
  have hhost : hostOf (LH ++ PP ++ SPQ) = LH := by
    rw [hostOf, hauth]
    exact hsplit2.1
  have hport : portOf (LH ++ PP ++ SPQ) = PP := by
    rw [portOf, hauth]
    exact hsplit2.2
  rw [urlTail, hhost, hport, hpq, hLH2, hPP2, hSPQ2]

/-- `urlTail` is idempotent. -/
theorem urlTail_idem (s rest : List Char) : urlTail s (urlTail s rest) = urlTail s rest := by
  rw [urlTail]
  apply urlTail_fixed
  · intro c hc
    rw [List.mem_map] at hc
    obtain ⟨d, hd, rfl⟩ := hc
    obtain ⟨hd1, hd2, hd3, hd4⟩ := mem_hostOf hd
    refine ⟨?_, ?_, ?_, ?_⟩ <;> intro hx
    · exact hd1 ((lowerCh_eq_low (by decide)).mp hx)
    · exact hd2 ((lowerCh_eq_low (by decide)).mp hx)
    · exact hd3 ((lowerCh_eq_low (by decide)).mp hx)
    · exact hd4 ((lowerCh_eq_low (by decide)).mp hx)
  · intro c hc
    rcases defaultPortStrip_cases s (portOf rest) with h | h
    · rw [h] at hc
      cases hc
    · rw [h] at hc
      exact mem_portOf hc
  · intro d hd
    rcases defaultPortStrip_cases s (portOf rest) with h | h
    · rw [h] at hd
      cases hd
    · rw [h] at hd
      have := dropWhile_head?_false (p := (· != ':')) (authOf rest) d hd
      simpa [bne_iff_ne] using this
  · intro c hc
    exact mem_pathQueryOf (strip_slash_subset hc)
  · intro d hd
    rcases strip_slash_head? (pathQueryOf rest) with h | h
    · rw [h] at hd
      cases hd
    · rw [h] at hd
      have := dropWhile_head?_false (p := fun c => c != '/' && c != '?')
        (fragFree rest) d hd
      rcases Bool.and_eq_false_iff.mp this with h2 | h2 <;>
        simp only [bne_eq_false_iff_eq] at h2
      · exact Or.inl h2
      · exact Or.inr h2
  · exact map_lowerCh_idem (hostOf rest)
  · exact defaultPortStrip_idem s (portOf rest)
  · exact strip_slash_idem (pathQueryOf rest)

/-- `normalizeChars` leaves inputs without `://` (file paths) unchanged. -/
theorem normalizeChars_of_none {l : List Char} (h : splitScheme l = none) :
    normalizeChars l = l := by
  unfold normalizeChars
  rw [h]

/-- `normalizeChars` on a URL produces the canonical
`scheme "://" tail` shape. -/
theorem normalizeChars_of_some {l scheme rest : List Char}
    (h : splitScheme l = some (scheme, rest)) :
    normalizeChars l
      = scheme.map lowerCh ++ ':' :: '/' :: '/' :: urlTail (scheme.map lowerCh) rest := by
  unfold normalizeChars
  rw [h]

/-- Character-level idempotence of the normalizer. -/
theorem normalizeChars_idem (l : List Char) :
    normalizeChars (normalizeChars l) = normalizeChars l := by
  cases hs : splitScheme l with
  | none =>
    rw [normalizeChars_of_none hs, normalizeChars_of_none hs]
  | some p =>
    obtain ⟨scheme, rest⟩ := p
    rw [normalizeChars_of_some hs]
    have hnone : splitScheme (scheme.map lowerCh) = none :=
      splitScheme_map_lower (splitScheme_some_none hs)
    have hsep := splitScheme_none_append (b := urlTail (scheme.map lowerCh) rest) hnone
    rw [normalizeChars_of_some hsep, map_lowerCh_idem, urlTail_idem]

/-- C7: `normalize` is a pure, total, deterministic function (a Lean
function of the input string alone) that is idempotent —
`normalize (normalize x) = normalize x` for every string — and the
case-insensitive scheme/host variants `"HTTP://Example.com/Doc"` and
`"http://example.com/Doc"` normalize equally. -/
theorem normalize_idempotent_C7 :
    (∀ x : String, Loader.normalize (Loader.normalize x) = Loader.normalize x) ∧
    Loader.normalize "HTTP://Example.com/Doc" = Loader.normalize "http://example.com/Doc" :=
  ⟨fun x => congrArg String.mk (normalizeChars_idem x.data), by decide⟩

/-! ## Helper lemmas for the ingestion coordinator -/

/-- Unfolding of `ingest_batch` on a cons. -/
theorem ingest_batch_cons (embed : String → Except IngestError Nat) (now : Nat)
    (st : RegistryState) (r : String) (rs : List String) :
    ingest_batch embed now st (r :: rs)
      = ((ingest_batch embed now (ingestOne embed now st r).1 rs).1,
         mergeOutcome (ingestOne embed now st r).2.1
           (ingest_batch embed now (ingestOne embed now st r).1 rs).2.1,
         (ingestOne embed now st r).2.2
           + (ingest_batch embed now (ingestOne embed now st r).1 rs).2.2) := rfl

/-- `ingestOne` on a fresh id with a successful embed publishes and loads. -/
theorem ingestOne_fresh {embed : String → Except IngestError Nat} {now : Nat}
    {st : RegistryState} {raw : String} {c : Nat}
    (hfresh : lookup st (Loader.normalize raw) = none)
    (hembed : embed (Loader.normalize raw) = Except.ok c) :
    ingestOne embed now st raw
      = (⟨st.sources ++ [⟨Loader.normalize raw, raw, c, now, now⟩]⟩,
         .loaded ⟨Loader.normalize raw, raw, c, now, now⟩, 1) := by
  simp only [ingestOne, hfresh, hembed]

/-- `ingestOne` on a fresh id with a failing embed reports the failure and
leaves the registry unchanged (failure is not cached). -/
theorem ingestOne_fail {embed : String → Except IngestError Nat} {now : Nat}
    {st : RegistryState} {raw : String} {e : IngestError}
    (hfresh : lookup st (Loader.normalize raw) = none)
    (hembed : embed (Loader.normalize raw) = Except.error e) :
    ingestOne embed now st raw = (st, .failed raw e, 0 + 1) := by
  simp only [ingestOne, hfresh, hembed]

/-- `ingestOne` on a cached id refreshes `last_seen_at` and skips. -/
theorem ingestOne_hit {embed : String → Except IngestError Nat} {now : Nat}
    {st : RegistryState} {raw : String} {s : Source}
    (h : lookup st (Loader.normalize raw) = some s) :
    ingestOne embed now st raw
      = (⟨st.sources.map fun t =>
            if t.normalized_id == Loader.normalize raw then
              { s with last_seen_at := now } else t⟩,
         .skipped { s with last_seen_at := now }, 0) := by
  simp only [ingestOne, h]

/-- Refreshing `last_seen_at` keeps the id cached. -/
theorem lookup_after_touch {st : RegistryState} {nid : String} {s : Source} (n : Nat)
    (h : lookup st nid = some s) :
    (lookup ⟨st.sources.map fun t =>
        if t.normalized_id == nid then { s with last_seen_at := n } else t⟩ nid).isSome := by
  unfold lookup at h
  have hmem : s ∈ st.sources := List.mem_of_find?_eq_some h
  have hp : (s.normalized_id == nid) = true := by simpa using List.find?_some h
  rw [lookup, List.find?_isSome]
  refine ⟨{ s with last_seen_at := n }, ?_, by simpa using hp⟩
  rw [List.mem_map]
  exact ⟨s, hmem, by rw [if_pos hp]⟩

/-- A batch of repeated submissions of an already-cached ref: no load, all
skipped, no failure, zero embed invocations. -/
theorem ingest_replicate_hit (embed : String → Except IngestError Nat) (now : Nat)
    (raw : String) :
    ∀ (m : Nat) (st : RegistryState), (lookup st (Loader.normalize raw)).isSome →
      (ingest_batch embed now st (List.replicate m raw)).2.1.loaded = [] ∧
      (ingest_batch embed now st (List.replicate m raw)).2.1.skipped.length = m ∧
      (ingest_batch embed now st (List.replicate m raw)).2.1.failed = [] ∧
      (ingest_batch embed now st (List.replicate m raw)).2.2 = 0
  | 0, st, _ => by simp [List.replicate, ingest_batch]
  | m + 1, st, hsome => by
    obtain ⟨s, hs⟩ := Option.isSome_iff_exists.mp hsome
    rw [List.replicate_succ, ingest_batch_cons, ingestOne_hit hs]
    have ih := ingest_replicate_hit embed now raw m
      ⟨st.sources.map fun t =>
        if t.normalized_id == Loader.normalize raw then
          { s with last_seen_at := now } else t⟩
      (lookup_after_touch now hs)
    simp only [mergeOutcome]
    exact ⟨ih.1, by simpa using ih.2.1, ih.2.2.1, by simpa using ih.2.2.2⟩

/-- C3: submitting the same raw_ref N ≥ 1 times sequentially through
`ingest_batch` — from a state where its normalized id is unknown and with
a succeeding embed pipeline — yields exactly one loaded result and N−1
skipped results, no failure, and exactly one embed-pipeline invocation
across the N submissions. -/
theorem ingest_idempotent_C3 (embed : String → Except IngestError Nat) (now : Nat)
    (raw : String) (st : RegistryState) (N : Nat) (hN : 1 ≤ N)
    (hfresh : lookup st (Loader.normalize raw) = none)
    (c : Nat) (hembed : embed (Loader.normalize raw) = Except.ok c) :
    (ingest_batch embed now st (List.replicate N raw)).2.1.loaded.length = 1 ∧
    (ingest_batch embed now st (List.replicate N raw)).2.1.skipped.length = N - 1 ∧
    (ingest_batch embed now st (List.replicate N raw)).2.1.failed = [] ∧
    (ingest_batch embed now st (List.replicate N raw)).2.2 = 1 := by
  obtain ⟨m, rfl⟩ : ∃ m, N = m + 1 := ⟨N - 1, by omega⟩
  rw [List.replicate_succ, ingest_batch_cons, ingestOne_fresh hfresh hembed]
  have hsome : (lookup ⟨st.sources ++ [⟨Loader.normalize raw, raw, c, now, now⟩]⟩
      (Loader.normalize raw)).isSome := by
    rw [lookup, List.find?_append]
    unfold lookup at hfresh
    rw [hfresh]
    simp
  have ih := ingest_replicate_hit embed now raw m
    ⟨st.sources ++ [⟨Loader.normalize raw, raw, c, now, now⟩]⟩ hsome
  simp only [mergeOutcome]
  refine ⟨by simp [ih.1], by simpa using ih.2.1, ih.2.2.1, by simpa using ih.2.2.2⟩

/-- C3 witness: three submissions of `"a.txt"` into an empty registry with
an embedder returning 3 chunks — one loaded, two skipped, one pipeline
invocation. -/
theorem ingest_idempotent_C3_witness :
    (ingest_batch (fun _ => Except.ok 3) 0 ⟨[]⟩ (List.replicate 3 "a.txt")).2.1.loaded.length
        = 1 ∧
    (ingest_batch (fun _ => Except.ok 3) 0 ⟨[]⟩ (List.replicate 3 "a.txt")).2.1.skipped.length
        = 3 - 1 ∧
    (ingest_batch (fun _ => Except.ok 3) 0 ⟨[]⟩ (List.replicate 3 "a.txt")).2.1.failed = [] ∧
    (ingest_batch (fun _ => Except.ok 3) 0 ⟨[]⟩ (List.replicate 3 "a.txt")).2.2 = 1 :=
  ingest_idempotent_C3 (fun _ => Except.ok 3) 0 "a.txt" ⟨[]⟩ 3 (by decide) rfl 3 rfl

/-- Every ref of a batch lands in exactly one of the three outcome
classes. -/
theorem ingest_batch_partition (embed : String → Except IngestError Nat) (now : Nat) :
    ∀ (raws : List String) (st : RegistryState),
      (ingest_batch embed now st raws).2.1.loaded.length
        + (ingest_batch embed now st raws).2.1.skipped.length
        + (ingest_batch embed now st raws).2.1.failed.length = raws.length
  | [], _ => rfl
  | r :: rs, st => by
    have ih := ingest_batch_partition embed now rs (ingestOne embed now st r).1
    have hlen : ∀ (o : LoadOutcome) (r2 : BatchResult),
        (mergeOutcome o r2).loaded.length + (mergeOutcome o r2).skipped.length
            + (mergeOutcome o r2).failed.length
          = r2.loaded.length + r2.skipped.length + r2.failed.length + 1 := by
      intro o r2
      cases o <;> simp [mergeOutcome] <;> omega
    rw [ingest_batch_cons]
    show (mergeOutcome (ingestOne embed now st r).2.1
          (ingest_batch embed now (ingestOne embed now st r).1 rs).2.1).loaded.length
        + (mergeOutcome (ingestOne embed now st r).2.1
          (ingest_batch embed now (ingestOne embed now st r).1 rs).2.1).skipped.length
        + (mergeOutcome (ingestOne embed now st r).2.1
          (ingest_batch embed now (ingestOne embed now st r).1 rs).2.1).failed.length
      = (r :: rs).length
    rw [hlen, List.length_cons]
    omega

/-- `ingest_batch` over a concatenation is the threaded composition of the
two halves. -/
theorem ingest_batch_append (embed : String → Except IngestError Nat) (now : Nat) :
    ∀ (a b : List String) (st : RegistryState),
      ingest_batch embed now st (a ++ b)
        = ((ingest_batch embed now (ingest_batch embed now st a).1 b).1,
           (ingest_batch embed now st a).2.1.append
             (ingest_batch embed now (ingest_batch embed now st a).1 b).2.1,
           (ingest_batch embed now st a).2.2
             + (ingest_batch embed now (ingest_batch embed now st a).1 b).2.2)
  | [], b, st => by
    show ingest_batch embed now st b = _
    simp only [ingest_batch, BatchResult.append, List.nil_append, Nat.zero_add]
  | a :: as, b, st => by
    rw [List.cons_append, ingest_batch_cons, ingest_batch_append embed now as b,
      ingest_batch_cons]
    have hmerge : ∀ (o : LoadOutcome) (r1 r2 : BatchResult),
        mergeOutcome o (r1.append r2) = (mergeOutcome o r1).append r2 := by
      intro o r1 r2
      cases o <;> simp [mergeOutcome, BatchResult.append]
    dsimp only
    rw [hmerge]
    simp only [Prod.mk.injEq]
    refine ⟨trivial, trivial, ?_⟩
    omega

/-- A single failing ref reports its error and leaves the registry state
unchanged. -/
theorem ingest_batch_fail_single (embed : String → Except IngestError Nat) (now : Nat)
    (st : RegistryState) (bad : String) (e : IngestError)
    (hembed : embed (Loader.normalize bad) = Except.error e)
    (hfresh : lookup st (Loader.normalize bad) = none) :
    ingest_batch embed now st [bad] = (st, ⟨[], [], [(bad, e)]⟩, 1) := by
  rw [ingest_batch_cons, ingestOne_fail hfresh hembed]
  rfl

/-- C4: every `ingest_batch` response partitions its sources into loaded,
skipped and failed (each source lands in exactly one class, failures
carrying a per-source reason), and a per-source failure (a ref whose
embed pipeline fails, e.g. with a ParseError) never aborts ingestion of
the other sources in the same batch: the final registry state and the
loaded/skipped outcomes are exactly those of the batch without the bad
ref, and the failed list gains only the `(bad, error)` entry at its
position. -/
theorem ingest_partial_failure_C4 (embed : String → Except IngestError Nat) (now : Nat)
    (st : RegistryState) :
    (∀ raws : List String,
      (ingest_batch embed now st raws).2.1.loaded.length
        + (ingest_batch embed now st raws).2.1.skipped.length
        + (ingest_batch embed now st raws).2.1.failed.length = raws.length) ∧
    (∀ (l1 l2 : List String) (bad : String) (e : IngestError),
      embed (Loader.normalize bad) = Except.error e →
      lookup (ingest_batch embed now st l1).1 (Loader.normalize bad) = none →
      (ingest_batch embed now st (l1 ++ bad :: l2)).1
          = (ingest_batch embed now st (l1 ++ l2)).1 ∧
      (ingest_batch embed now st (l1 ++ bad :: l2)).2.1.loaded
          = (ingest_batch embed now st (l1 ++ l2)).2.1.loaded ∧
      (ingest_batch embed now st (l1 ++ bad :: l2)).2.1.skipped
          = (ingest_batch embed now st (l1 ++ l2)).2.1.skipped ∧
      (ingest_batch embed now st (l1 ++ bad :: l2)).2.1.failed
          = (ingest_batch embed now st l1).2.1.failed
            ++ (bad, e) ::
              (ingest_batch embed now (ingest_batch embed now st l1).1 l2).2.1.failed) := by
  refine ⟨fun raws => ingest_batch_partition embed now raws st, ?_⟩
  intro l1 l2 bad e hbad hfresh
  have hsingle := ingest_batch_fail_single embed now
    (ingest_batch embed now st l1).1 bad e hbad hfresh
  have hwith : ingest_batch embed now st (l1 ++ bad :: l2)
      = ingest_batch embed now st (l1 ++ [bad] ++ l2) := by
    rw [List.append_assoc]
    rfl
  rw [hwith, ingest_batch_append embed now (l1 ++ [bad]) l2,
    ingest_batch_append embed now l1 [bad], hsingle,
    ingest_batch_append embed now l1 l2]
  dsimp only
  refine ⟨rfl, ?_, ?_, ?_⟩ <;>
    simp [BatchResult.append]

/-- C4 witness: ingesting `["good.txt", "missing.pdf"]` where
`missing.pdf` fails parsing yields the failure entry for `missing.pdf`
alone, appended after the outcomes of `good.txt`, which is ingested
normally. -/
theorem ingest_partial_failure_C4_witness :
    (ingest_batch
        (fun r => if r = "missing.pdf" then Except.error (IngestError.parseError "cannot read")
          else Except.ok 2) 0 ⟨[]⟩ (["good.txt"] ++ "missing.pdf" :: [])).2.1.failed
      = (ingest_batch
          (fun r => if r = "missing.pdf" then Except.error (IngestError.parseError "cannot read")
            else Except.ok 2) 0 ⟨[]⟩ ["good.txt"]).2.1.failed
        ++ ("missing.pdf", IngestError.parseError "cannot read")
          :: (ingest_batch
              (fun r => if r = "missing.pdf" then
                  Except.error (IngestError.parseError "cannot read")
                else Except.ok 2) 0
              (ingest_batch
                (fun r => if r = "missing.pdf" then
                    Except.error (IngestError.parseError "cannot read")
                  else Except.ok 2) 0 ⟨[]⟩ ["good.txt"]).1 []).2.1.failed :=
  ((ingest_partial_failure_C4
      (fun r => if r = "missing.pdf" then Except.error (IngestError.parseError "cannot read")
        else Except.ok 2) 0 ⟨[]⟩).2
    ["good.txt"] [] "missing.pdf" (IngestError.parseError "cannot read") rfl rfl).2.2.2

/-! ## Helper lemmas for the single-flight model -/

namespace SingleFlight

/-- Steps never add or remove callers. -/
theorem step_length {c0 : Nat} {s t : SysState} (h : Step c0 s t) :
    t.callers.length = s.callers.length := by
  cases h <;> simp

/-- Every reachable state has the initial number of callers. -/
theorem reachable_length {c0 N : Nat} {s : SysState} (h : Reachable c0 N s) :
    s.callers.length = N := by
  induction h with
  | init => simp [initState]
  | step _ hstep ih => rw [step_length hstep, ih]

/-- Winner-side phases are never resolved. -/
theorem isDone_false_of_isActive {p : CallerPhase} (h : isActive p = true) :
    isDone p = false := by
  cases p <;> simp_all [isActive, isDone]

/-- An embedded caller is winner-side. -/
theorem isActive_of_isEmbedded {p : CallerPhase} (h : isEmbedded p = true) :
    isActive p = true := by
  cases p <;> simp_all [isEmbedded, isActive]

/-- A list without winner-side callers has no embedded caller. -/
theorem countP_isEmbedded_eq_zero {l : List CallerPhase}
    (h : l.countP isActive = 0) : l.countP isEmbedded = 0 := by
  rw [List.countP_eq_zero] at h ⊢
  intro p hp hemb
  exact h p hp (isActive_of_isEmbedded hemb)

end SingleFlight

namespace SingleFlight

/-- The single-flight invariant is preserved by every interleaving step. -/
theorem inv_step {c0 : Nat} {s t : SysState} (hstep : Step c0 s t) (hinv : Inv c0 s) :
    Inv c0 t := by
  cases hstep with
  | acquire l1 l2 e =>
    simp only [Inv] at hinv ⊢
    obtain ⟨he, hall⟩ := hinv
    rw [List.forall_mem_append, List.forall_mem_cons] at hall
    obtain ⟨h1, _, h2⟩ := hall
    have c1 : l1.countP isActive = 0 :=
      List.countP_eq_zero.mpr fun p hp => by rw [h1 p hp]; simp [isActive]
    have c2 : l2.countP isActive = 0 :=
      List.countP_eq_zero.mpr fun p hp => by rw [h2 p hp]; simp [isActive]
    have d1 : l1.countP isEmbedded = 0 :=
      List.countP_eq_zero.mpr fun p hp => by rw [h1 p hp]; simp [isEmbedded]
    have d2 : l2.countP isEmbedded = 0 :=
      List.countP_eq_zero.mpr fun p hp => by rw [h2 p hp]; simp [isEmbedded]
    refine ⟨?_, ?_, ?_, ?_⟩
    · simp only [List.countP_append, List.countP_cons, c1, c2]
      simp [isActive]
    · simp only [List.countP_append, List.countP_cons, d1, d2]
      simp [isEmbedded, he]
    · rw [List.forall_mem_append, List.forall_mem_cons]
      exact ⟨fun p hp => Or.inl (h1 p hp), Or.inr (Or.inr rfl),
        fun p hp => Or.inl (h2 p hp)⟩
    · intro c hc
      rcases List.mem_append.mp hc with hc | hc
      · exact absurd (h1 _ hc) (by simp)
      · rcases List.mem_cons.mp hc with hc | hc
        · exact absurd hc (by simp)
        · exact absurd (h2 _ hc) (by simp)
  | join l1 l2 e =>
    simp only [Inv] at hinv ⊢
    obtain ⟨hcount, hemb, hall, hembc⟩ := hinv
    rw [List.forall_mem_append, List.forall_mem_cons] at hall
    obtain ⟨h1, _, h2⟩ := hall
    simp only [List.countP_append, List.countP_cons] at hcount hemb ⊢
    refine ⟨?_, ?_, ?_, ?_⟩
    · simpa [isActive] using hcount
    · simpa [isEmbedded] using hemb
    · rw [List.forall_mem_append, List.forall_mem_cons]
      exact ⟨h1, Or.inr (Or.inl rfl), h2⟩
    · intro c hc
      apply hembc c
      rcases List.mem_append.mp hc with hc | hc
      · exact List.mem_append.mpr (Or.inl hc)
      · rcases List.mem_cons.mp hc with hc | hc
        · exact absurd hc (by simp)
        · exact List.mem_append.mpr (Or.inr (List.mem_cons_of_mem _ hc))
  | embed l1 l2 e =>
    simp only [Inv] at hinv ⊢
    obtain ⟨hcount, hemb, hall, hembc⟩ := hinv
    rw [List.forall_mem_append, List.forall_mem_cons] at hall
    obtain ⟨h1, _, h2⟩ := hall
    simp only [List.countP_append, List.countP_cons] at hcount hemb ⊢
    refine ⟨?_, ?_, ?_, ?_⟩
    · simpa [isActive] using hcount
    · simp [isEmbedded] at hemb ⊢
      omega
    · rw [List.forall_mem_append, List.forall_mem_cons]
      exact ⟨h1, Or.inr (Or.inr (by simp [isActive])), h2⟩
    · intro c hc
      rcases List.mem_append.mp hc with hc | hc
      · exact hembc c (List.mem_append.mpr (Or.inl hc))
      · rcases List.mem_cons.mp hc with hc | hc
        · exact CallerPhase.embedded.inj hc
        · exact hembc c
            (List.mem_append.mpr (Or.inr (List.mem_cons_of_mem _ hc)))
  | publish l1 l2 c e =>
    simp only [Inv] at hinv ⊢
    obtain ⟨hcount, hemb, hall, hembc⟩ := hinv
    have hc0 : c = c0 :=
      hembc c (List.mem_append.mpr (Or.inr (List.mem_cons_self _ _)))
    rw [List.forall_mem_append, List.forall_mem_cons] at hall
    obtain ⟨h1, _, h2⟩ := hall
    simp only [List.countP_append, List.countP_cons] at hcount hemb ⊢
    have hact : l1.countP isActive = 0 ∧ l2.countP isActive = 0 := by
      have : (if isActive (.embedded c) then 1 else 0) = 1 := by simp [isActive]
      omega
    have hd1 : l1.countP isEmbedded = 0 := countP_isEmbedded_eq_zero hact.1
    have hd2 : l2.countP isEmbedded = 0 := countP_isEmbedded_eq_zero hact.2
    have hnotact1 : ∀ p ∈ l1, p = .ready ∨ p = .waiting := by
      intro p hp
      rcases h1 p hp with h | h | h
      · exact Or.inl h
      · exact Or.inr h
      · exact absurd h (by
          have := List.countP_eq_zero.mp hact.1 p hp
          simpa using this)
    have hnotact2 : ∀ p ∈ l2, p = .ready ∨ p = .waiting := by
      intro p hp
      rcases h2 p hp with h | h | h
      · exact Or.inl h
      · exact Or.inr h
      · exact absurd h (by
          have := List.countP_eq_zero.mp hact.2 p hp
          simpa using this)
    refine ⟨hc0, ?_, ?_, ?_⟩
    · simp [isEmbedded, hd1, hd2] at hemb
      omega
    · have e1 : l1.countP isLoaded = 0 :=
        List.countP_eq_zero.mpr fun p hp => by
          rcases hnotact1 p hp with rfl | rfl <;> simp [isLoaded]
      have e2 : l2.countP isLoaded = 0 :=
        List.countP_eq_zero.mpr fun p hp => by
          rcases hnotact2 p hp with rfl | rfl <;> simp [isLoaded]
      simp [isLoaded, e1, e2]
    · rw [List.forall_mem_append, List.forall_mem_cons]
      refine ⟨fun p hp => ?_, Or.inr (Or.inr (Or.inl (by rw [hc0]))), fun p hp => ?_⟩
      · rcases hnotact1 p hp with rfl | rfl
        · exact Or.inl rfl
        · exact Or.inr (Or.inl rfl)
      · rcases hnotact2 p hp with rfl | rfl
        · exact Or.inl rfl
        · exact Or.inr (Or.inl rfl)
  | observe l1 l2 c e =>
    simp only [Inv] at hinv ⊢
    obtain ⟨hc0, he, hload, hall⟩ := hinv
    rw [List.forall_mem_append, List.forall_mem_cons] at hall
    obtain ⟨h1, _, h2⟩ := hall
    simp only [List.countP_append, List.countP_cons] at hload ⊢
    refine ⟨hc0, he, by simpa [isLoaded] using hload, ?_⟩
    rw [List.forall_mem_append, List.forall_mem_cons]
    exact ⟨h1, Or.inr (Or.inr (Or.inr (by rw [hc0]))), h2⟩
  | resume l1 l2 c e =>
    simp only [Inv] at hinv ⊢
    obtain ⟨hc0, he, hload, hall⟩ := hinv
    rw [List.forall_mem_append, List.forall_mem_cons] at hall
    obtain ⟨h1, _, h2⟩ := hall
    simp only [List.countP_append, List.countP_cons] at hload ⊢
    refine ⟨hc0, he, by simpa [isLoaded] using hload, ?_⟩
    rw [List.forall_mem_append, List.forall_mem_cons]
    exact ⟨h1, Or.inr (Or.inr (Or.inr (by rw [hc0]))), h2⟩

/-- The invariant holds in every reachable state. -/
theorem inv_reachable {c0 N : Nat} {s : SysState} (h : Reachable c0 N s) : Inv c0 s := by
  induction h with
  | init =>
    exact ⟨rfl, fun p hp => List.eq_of_mem_replicate hp⟩
  | step _ hstep ih => exact inv_step hstep ih

end SingleFlight

/-- C1: for any chunk count `c0` produced by the external embedder and any
N ≥ 1 concurrent `acquire_or_join` callers for the same normalized_id,
in every state reachable under arbitrary interleaving in which all
callers have resolved, the embed-and-store pipeline has executed exactly
once, exactly one caller resolved loaded, the other N−1 resolved skipped,
and every outcome references the same chunk count `c0`. -/
theorem single_flight_C1 (c0 N : Nat) (s : SingleFlight.SysState) (hN : 1 ≤ N)
    (hr : SingleFlight.Reachable c0 N s)
    (hdone : ∀ p ∈ s.callers, SingleFlight.isDone p = true) :
    s.callers.length = N ∧
    s.embeds = 1 ∧
    s.callers.countP SingleFlight.isLoaded = 1 ∧
    s.callers.countP SingleFlight.isSkipped = N - 1 ∧
    (∀ p ∈ s.callers,
      p = SingleFlight.CallerPhase.doneLoaded c0 ∨
      p = SingleFlight.CallerPhase.doneSkipped c0) := by
  have hlen := SingleFlight.reachable_length hr
  have hinv := SingleFlight.inv_reachable hr
  obtain ⟨cs, slot, e⟩ := s
  dsimp only at hlen hdone ⊢
  cases slot with
  | free =>
    exfalso
    simp only [SingleFlight.Inv] at hinv
    obtain ⟨-, hall⟩ := hinv
    cases cs with
    | nil => simp at hlen; omega
    | cons q qs =>
      have hq := hall q (List.mem_cons_self q qs)
      have hd := hdone q (List.mem_cons_self q qs)
      rw [hq] at hd
      simp [SingleFlight.isDone] at hd
  | inFlight =>
    exfalso
    simp only [SingleFlight.Inv] at hinv
    obtain ⟨hcount, -, -, -⟩ := hinv
    have hpos : 0 < cs.countP SingleFlight.isActive := by omega
    obtain ⟨p, hp, hact⟩ := List.countP_pos_iff.mp hpos
    have hd := hdone p hp
    rw [SingleFlight.isDone_false_of_isActive hact] at hd
    cases hd
  | published c =>
    simp only [SingleFlight.Inv] at hinv
    obtain ⟨rfl, he, hload, hall⟩ := hinv
    have hshape : ∀ p ∈ cs,
        p = SingleFlight.CallerPhase.doneLoaded c ∨
        p = SingleFlight.CallerPhase.doneSkipped c := by
      intro p hp
      rcases hall p hp with rfl | rfl | rfl | rfl
      · have := hdone _ hp
        simp [SingleFlight.isDone] at this
      · have := hdone _ hp
        simp [SingleFlight.isDone] at this
      · exact Or.inl rfl
      · exact Or.inr rfl
    have hsum : ∀ l : List SingleFlight.CallerPhase,
        (∀ p ∈ l,
          p = SingleFlight.CallerPhase.doneLoaded c ∨
          p = SingleFlight.CallerPhase.doneSkipped c) →
        l.countP SingleFlight.isLoaded + l.countP SingleFlight.isSkipped = l.length := by
      intro l
      induction l with
      | nil => simp
      | cons q qs ih =>
        intro hq
        have hqs := ih fun p hp => hq p (List.mem_cons_of_mem _ hp)
        rcases hq q (List.mem_cons_self q qs) with rfl | rfl <;>
          · simp only [List.countP_cons, List.length_cons, SingleFlight.isLoaded,
              SingleFlight.isSkipped, if_true, if_false, Bool.false_eq_true, ite_true,
              ite_false] at hqs ⊢
            omega
    have := hsum cs hshape
    exact ⟨hlen, he, hload, by omega, hshape⟩

/-- C1 witness: a concrete interleaving of two callers (caller 0 acquires,
caller 1 joins while in flight, caller 0 embeds 3 chunks and publishes,
caller 1 resumes) ends all-done with one embed invocation, one loaded and
one skipped outcome, both with chunk count 3. -/
theorem single_flight_C1_witness :
    let sfin : SingleFlight.SysState :=
      ⟨[SingleFlight.CallerPhase.doneLoaded 3, SingleFlight.CallerPhase.doneSkipped 3],
        SingleFlight.SlotState.published 3, 1⟩
    sfin.callers.length = 2 ∧
    sfin.embeds = 1 ∧
    sfin.callers.countP SingleFlight.isLoaded = 1 ∧
    sfin.callers.countP SingleFlight.isSkipped = 2 - 1 ∧
    (∀ p ∈ sfin.callers,
      p = SingleFlight.CallerPhase.doneLoaded 3 ∨
      p = SingleFlight.CallerPhase.doneSkipped 3) := by
  have h0 : SingleFlight.Reachable 3 2 (SingleFlight.initState 2) :=
    SingleFlight.Reachable.init
  have h1 := h0.step (SingleFlight.Step.acquire [] [SingleFlight.CallerPhase.ready] 0)
  have h2 := h1.step (SingleFlight.Step.join [SingleFlight.CallerPhase.winner] [] 0)
  have h3 := h2.step (SingleFlight.Step.embed [] [SingleFlight.CallerPhase.waiting] 0)
  have h4 := h3.step (SingleFlight.Step.publish [] [SingleFlight.CallerPhase.waiting] 3 1)
  have h5 := h4.step
    (SingleFlight.Step.resume [SingleFlight.CallerPhase.doneLoaded 3] [] 3 1)
  exact single_flight_C1 3 2 _ (by decide) h5 (by decide)
